import Mathlib

set_option maxRecDepth 8000
set_option maxHeartbeats 1000000

/-!
Verification development for the menu-parsing core of `simple-sharples`
(`src/index.ts`).  The engine is a micro-parser over loosely structured
HTML-ish text; we embed it shallowly over `List Char`.

JavaScript strings are modelled as `List Char`.  Every global regex
`replace`/`split` of the source is modelled by a left-to-right scan driven
by a matcher function that reports the length of the (necessarily
non-empty) match starting at the current position; this is exactly the
`lastIndex` semantics of a global regex.  The scans are written with an
explicit fuel equal to the length of the input so that every definition is
structurally recursive and evaluates inside the kernel.

The `html-entities` `decode` function is an external library; it is passed
as an explicit function parameter `dec` wherever the source calls it, and
concrete instances use the identity, which agrees with `decode` on
entity-free text.  The luxon date fields of a `Meal` are carried as
opaque strings; none of the parsing logic inspects them.
-/

namespace Sharples

/-- Character list of a string literal. -/
def S (s : String) : List Char := s.data

/-- ASCII whitespace recognised by the JavaScript `\s` class and `trim`. -/
def jsWS (c : Char) : Bool :=
  c = ' ' || c = '\t' || c = '\n' || c = '\r' || c = '\x0b' || c = '\x0c'

/-- `s.toLowerCase()` (ASCII). -/
def toLowerL (l : List Char) : List Char := l.map Char.toLower

/-- `s.trim()`. -/
def trimL (l : List Char) : List Char :=
  ((l.dropWhile jsWS).reverse.dropWhile jsWS).reverse

/-- `s.includes(pat)`: substring containment. -/
def containsSub : List Char → List Char → Bool
  | [], pat => pat.isEmpty
  | c :: cs, pat => pat.isPrefixOf (c :: cs) || containsSub cs pat

/-- Fuel-driven scan of a global-regex `split`.  The matcher returns the
length of the match starting at the head of the list, or `none`. -/
def splitGo (m : List Char → Option Nat) : Nat → List Char → List (List Char)
  | 0, l => [l]
  | _fuel + 1, [] => [[]]
  | fuel + 1, c :: cs =>
    match m (c :: cs) with
    | some n => [] :: splitGo m fuel ((c :: cs).drop (max n 1))
    | none =>
      match splitGo m fuel cs with
      | [] => [[c]]
      | s :: ss => (c :: s) :: ss

/-- `str.split(regex)` for the regex recognised by the matcher `m`. -/
def splitByM (m : List Char → Option Nat) (l : List Char) : List (List Char) :=
  splitGo m l.length l

/-- Fuel-driven scan of a global-regex `replace`. -/
def replGo (m : List Char → Option Nat) (repl : List Char) : Nat → List Char → List Char
  | 0, l => l
  | _fuel + 1, [] => []
  | fuel + 1, c :: cs =>
    match m (c :: cs) with
    | some n => repl ++ replGo m repl fuel ((c :: cs).drop (max n 1))
    | none => c :: replGo m repl fuel cs

/-- `str.replace(regex, repl)` with the `g` flag, for the matcher `m`. -/
def replaceByM (m : List Char → Option Nat) (repl : List Char) (l : List Char) : List Char :=
  replGo m repl l.length l

/-- Matcher of a literal pattern. -/
def litM (pat : List Char) (l : List Char) : Option Nat :=
  if !pat.isEmpty && pat.isPrefixOf l then some pat.length else none

/-- Matcher of an ordered alternation of literal patterns (first alternative
that matches wins, as in a regex alternation). -/
def altM (pats : List (List Char)) (l : List Char) : Option Nat :=
  (pats.find? (fun p => !p.isEmpty && p.isPrefixOf l)).map List.length

/-- `str.replace(lit, repl)` global. -/
def replaceLit (pat repl l : List Char) : List Char := replaceByM (litM pat) repl l

/-- `str.split(lit)`. -/
def splitLit (pat l : List Char) : List (List Char) := splitByM (litM pat) l

/-- Matcher of the tag pattern `<\/?[^>]+(>|$)` used by `stripHtmlTags`:
a `<`, at least one following character other than `>`, and the closing `>`
when present (the match extends to the end of the string otherwise). -/
def tagM (l : List Char) : Option Nat :=
  match l with
  | '<' :: cs =>
    let body := cs.takeWhile (fun c => c ≠ '>')
    if body.isEmpty then none
    else if body.length < cs.length then some (1 + body.length + 1)
    else some (1 + body.length)
  | _ => none

/-- `stripHtmlTags` of the source: `s.replace(/<\/?[^>]+(>|$)/g, '')`. -/
def stripHtmlTags (l : List Char) : List Char := replaceByM tagM [] l

/-- Matcher of the block boundary `<span\s[^>]+>`. -/
def spanM (l : List Char) : Option Nat :=
  if (S "<span").isPrefixOf l then
    match l.drop 5 with
    | c :: rest =>
      if jsWS c then
        let body := rest.takeWhile (fun d => d ≠ '>')
        if !body.isEmpty && body.length < rest.length then some (5 + 1 + body.length + 1)
        else none
      else none
    | [] => none
  else none

/-- Matcher of `<\s*b\s*>` used by `parseEssies`. -/
def boldM (l : List Char) : Option Nat :=
  match l with
  | '<' :: rest =>
    let w1 := rest.takeWhile jsWS
    match rest.drop w1.length with
    | 'b' :: rest2 =>
      let w2 := rest2.takeWhile jsWS
      match rest2.drop w2.length with
      | '>' :: _ => some (1 + w1.length + 1 + w2.length + 1)
      | _ => none
    | _ => none
  | _ => none

/-- Offset of the lazy closing `::` of the pattern ` ::.*?::` (the dot does
not match line terminators). -/
def lazyClose : List Char → Option Nat
  | [] => none
  | c :: cs =>
    if (S "::").isPrefixOf (c :: cs) then some 0
    else if c = '\n' || c = '\r' then none
    else (lazyClose cs).map (· + 1)

/-- Matcher of the unknown-dietary-token pattern ` ::.*?::`. -/
def unknownM (l : List Char) : Option Nat :=
  match l with
  | c :: cs =>
    if c = ' ' ∧ (S "::").isPrefixOf cs then
      match lazyClose (cs.drop 2) with
      | some j => some (1 + 2 + j + 2)
      | none => none
    else none
  | [] => none

/-- `s.replace(/ ::.*?::/g, '')`. -/
def dropUnknownTokens (l : List Char) : List Char := replaceByM unknownM [] l

/-- Case-insensitive literal matcher, for `/special/i`. -/
def ciLitM (pat : List Char) (l : List Char) : Option Nat :=
  if !pat.isEmpty && (toLowerL (l.take pat.length) == pat) then some pat.length else none

/-- `arr.join(sep)`. -/
def intercalateL (sep : List Char) : List (List Char) → List Char
  | [] => []
  | [x] => x
  | x :: y :: xs => x ++ sep ++ intercalateL sep (y :: xs)

/-! ### sortMains -/

/-- The fixed keyword priority list of `sortMains`. -/
def keywords : List (List Char) :=
  [S "taco", S "chicken", S "steak", S "beef", S "shrimp", S "tofu", S "seitan",
   S "bacon", S "sausage", S "pork", S "cod", S "meatball", S "tilapia", S "salmon",
   S "wing", S "pizza", S "pasta", S "fried rice", S "waffles", S "french toast",
   S "aloo gobi", S "vindaloo"]

/-- `item.toLowerCase().includes(keyword)`. -/
def kwMatch (item kw : List Char) : Bool := containsSub (toLowerL item) kw

/-- Item matches some keyword of the list. -/
def matchAny (ks : List (List Char)) (item : List Char) : Bool :=
  ks.any (fun k => kwMatch item k)

/-- The template `<strong>${x}</strong>`. -/
def boldWrap (t : List Char) : List Char := S "<strong>" ++ t ++ S "</strong>"

/-- `new Set(lst)`: dedup keeping first occurrences, iteration in insertion
order (guaranteed by JavaScript `Set`). -/
def firstSeen {α : Type} [DecidableEq α] (l : List α) : List α :=
  l.foldl (fun acc x => if x ∈ acc then acc else acc ++ [x]) []

/-- The keyword loop of `sortMains`: for each keyword in order, move every
matching item (in current set order) to the output, bolded and trimmed.
Deleting the visited element of a JavaScript `Set` during iteration keeps
the relative order of the remaining elements, which `filter` models. -/
def sortMainsLoop : List (List Char) → List (List Char) → List (List Char) × List (List Char)
  | [], items => ([], items)
  | k :: ks, items =>
    let matched := items.filter (fun i => kwMatch i k)
    let rest := items.filter (fun i => !kwMatch i k)
    let p := sortMainsLoop ks rest
    (matched.map (fun i => boldWrap (trimL i)) ++ p.1, p.2)

/-- `sortMains` of the source. -/
def sortMains (lst : List (List Char)) : List (List Char) :=
  let p := sortMainsLoop keywords (firstSeen lst)
  p.1 ++ p.2.map trimL

/-- What one deduplicated item becomes in the output of `sortMains`. -/
def transformItem (i : List Char) : List Char :=
  if matchAny keywords i then boldWrap (trimL i) else trimL i

/-- Index in the priority list of the earliest keyword the item matches
(`keywords.length` when none matches). -/
def minKwIdx (i : List Char) : Nat := keywords.findIdx (fun k => kwMatch i k)

/-- First character is not whitespace (vacuously true for the empty list). -/
def headNotWS (k : List Char) : Bool :=
  match k with
  | [] => true
  | c :: _ => !jsWS c

/-- Last character is not whitespace (vacuously true for the empty list). -/
def lastNotWS (k : List Char) : Bool :=
  match k.getLast? with
  | none => true
  | some c => !jsWS c

/-- Structural facts about a keyword under which keyword matching is
invariant under trimming and bold-wrapping: non-empty, free of angle
brackets, not contained in the strong wrappers, bounded by non-whitespace
characters.  Every entry of `keywords` satisfies this (checked by
`decide` below). -/
def kwGood (k : List Char) : Bool :=
  !k.isEmpty && !containsSub (S "<strong>") k && !containsSub (S "</strong>") k &&
    k.all (fun c => c ≠ '<' && c ≠ '>') && headNotWS k && lastNotWS k

/-! ### parseMeal -/

def vegan : List Char := S "<abbr class=\"tag vegan\" title=\"Vegan\">(v)</abbr>"
def halal : List Char := S "<abbr class=\"tag halal\" title=\"Halal\">(h)</abbr>"
def veget : List Char := S "<abbr class=\"tag veget\" title=\"Vegetarian\">(vg)</abbr>"
def egg : List Char := S "<abbr class=\"tag egg\" title=\"Egg\">(e)</abbr>"
def milk : List Char := S "<abbr class=\"tag milk\" title=\"Milk\">(m)</abbr>"
def soy : List Char := S "<abbr class=\"tag soy\" title=\"Soy\">(s)</abbr>"
def wheat : List Char := S "<abbr class=\"tag wheat\" title=\"Wheat\">(w)</abbr>"
def fish : List Char := S "<abbr class=\"tag fish\" title=\"Fish\">(f)</abbr>"
def glutenfree : List Char := S "<abbr class=\"tag gf\" title=\"Gluten Free\">(gf)</abbr>"
def sesame : List Char := S "<abbr class=\"tag sesame\" title=\"Sesame\">(ses)</abbr>"
def alcohol : List Char := S "<abbr class=\"tag alcohol\" title=\"Alcohol\">(a)</abbr>"

def main1 : List Char := S "<abbr title=\"Classics\">Main 1</abbr>:"
def main2 : List Char := S "<abbr title=\"World of Flavor\">Main 2</abbr>:"
def main3 : List Char := S "<abbr title=\"Spice of Life\">Main 3</abbr>:"
def veganMain : List Char := S "<abbr title=\"Verdant & Vegan\">Vegan Main</abbr>:"
def salad : List Char := S "<abbr title=\"Field of Greens\">Salad</abbr>:"
def dessert : List Char := S "<abbr title=\"Daily Kneads\">Dessert</abbr>:"
def allergen : List Char := S "<abbr title=\"Free Zone\">Allergen Choice</abbr>:"

/-- Canonical presentation order of the block labels. -/
def orderL : List (List Char) :=
  [main1, main2, main3, veganMain, allergen, salad, dessert]

/-- Excluded promotional block prefixes. -/
def excludeL : List (List Char) := [S "Fired Up", S "Grillin\x27 Out"]

/-- The ordered substitution chain applied to each decoded, tag-stripped,
trimmed block: the eleven dietary-token rules, then the unknown-token
cleanup, then the section-label rules (regex alternations modelled by
ordered alternation matchers). -/
def substituteTags (t0 : List Char) : List Char :=
  let t1 := replaceLit (S "::vegan::") vegan t0
  let t2 := replaceLit (S "::halal::") halal t1
  let t3 := replaceLit (S "::vegetarian::") veget t2
  let t4 := replaceLit (S "::egg::") egg t3
  let t5 := replaceLit (S "::milk::") milk t4
  let t6 := replaceLit (S "::soy::") soy t5
  let t7 := replaceLit (S "::wheat::") wheat t6
  let t8 := replaceLit (S "::fish::") fish t7
  let t9 := replaceLit (S "::gluten free::") glutenfree t8
  let t10 := replaceLit (S "::sesame::") sesame t9
  let t11 := replaceLit (S "::alcohol::") alcohol t10
  let t12 := dropUnknownTokens t11
  let t13 := replaceLit (S "Classics:") main1 t12
  let t14 := replaceByM (altM [S "World of Flavor:", S "World Flavor:"]) main2 t13
  let t15 := replaceLit (S "Verdant & Vegan:") veganMain t14
  let t16 := replaceLit (S "Daily Kneads:") dessert t15
  let t17 := replaceLit (S "Free Zone:") allergen t16
  let t18 := replaceByM (altM [S "Spice of Life:", S "Spice:"]) main3 t17
  replaceByM (altM [S "Field of Greens:", S "Field of Green:"]) salad t18

/-- `decode(stripHtmlTags(item)).trim()` followed by the substitution chain. -/
def processBlock (dec : List Char → List Char) (item : List Char) : List Char :=
  substituteTags (trimL (dec (stripHtmlTags item)))

/-- The blocks of a description that survive the exclusion and emptiness
filters of `parseMeal`. -/
def survivingBlocks (dec : List Char → List Char) (description : List Char) :
    List (List Char) :=
  (((splitByM spanM (replaceLit (S "</span>") (S ": ") description)).map
      (processBlock dec)).filter
    (fun m => !excludeL.any (fun e => e.isPrefixOf m))).filter
    (fun m => !m.isEmpty)

/-- `i.replace(/^& /, '')`. -/
def stripAmp (i : List Char) : List Char :=
  if (S "& ").isPrefixOf i then i.drop 2 else i

/-- The final per-block map of `parseMeal`: split label from items, re-sort
the item list, reassemble.  The indexed access `titleAndItems[1]` is
undefined when the block has no `": "` separator, in which case the
subsequent `.split` throws; this is modelled by `none`. -/
def finishBlock (item : List Char) : Option (List Char) :=
  let parts := splitLit (S ": ") item
  match parts[1]? with
  | none => none
  | some its =>
    some ((parts.headD []) ++ S ": " ++
      intercalateL (S ", ") (sortMains ((splitLit (S ", ") its).map stripAmp)))

/-- Left-to-right effectful map into `Option`, modelling that the first
throwing block aborts the whole `.map`. -/
def optMapM {α β : Type} (f : α → Option β) : List α → Option (List β)
  | [] => some []
  | x :: xs =>
    match f x with
    | none => none
    | some y => (optMapM f xs).map (fun ys => y :: ys)

/-- `order.findIndex((value) => block.startsWith(value))`: the comparison key
of the final sort, `-1` when no label matches. -/
def blockKey (b : List Char) : Int :=
  match orderL.findIdx? (fun v => v.isPrefixOf b) with
  | none => -1
  | some n => (n : Int)

/-- The final `.sort` of `parseMeal`.  JavaScript `Array.prototype.sort` is
stable and the comparator is the difference of the `blockKey`s, so the
result is the stable sort by `blockKey`; insertion sort with the non-strict
comparison realises exactly that. -/
def sortBlocks (l : List (List Char)) : List (List Char) :=
  List.insertionSort (fun a b => blockKey a ≤ blockKey b) l

instance : IsTotal (List Char) (fun a b => blockKey a ≤ blockKey b) :=
  ⟨fun a b => le_total (blockKey a) (blockKey b)⟩

instance : IsTrans (List Char) (fun a b => blockKey a ≤ blockKey b) :=
  ⟨fun _ _ _ h1 h2 => le_trans h1 h2⟩

/-- The `items` field computed by `parseMeal` from a description, `none`
when the computation throws (see `finishBlock`). -/
def parseMealItems (dec : List Char → List Char) (description : List Char) :
    Option (List (List Char)) :=
  (optMapM finishBlock (survivingBlocks dec description)).map sortBlocks

/-! ### groupMealsByDay and parseEssies -/

structure Meal where
  title : List Char
  startdate : List Char
  enddate : List Char
  short_time : List Char
  short_date : List Char
  items : List (List Char)
deriving DecidableEq

structure Day where
  short_date : List Char
  lunch : Option Meal := none
  dinner : Option Meal := none
deriving DecidableEq

/-- The switch on `meal.title` inside `groupMealsByDay`. -/
def applyMeal (d : Day) (m : Meal) : Day :=
  if m.title = S "Brunch" ∨ m.title = S "Lunch" then { d with lunch := some m }
  else if m.title = S "Dinner" then { d with dinner := some m }
  else d

/-- One iteration of the loop of `groupMealsByDay`: create the entry for the
date when absent (at the end, in key insertion order), then update it.  The
`Record<string, Day>` preserves key insertion order for the dates at hand,
so it is modelled by an association list. -/
def groupStep (days : List Day) (m : Meal) : List Day :=
  let days2 := if ∃ d ∈ days, d.short_date = m.short_date then days
               else days ++ [{ short_date := m.short_date }]
  days2.map (fun d => if d.short_date = m.short_date then applyMeal d m else d)

/-- `groupMealsByDay` of the source. -/
def groupMealsByDay (meals : List Meal) : List Day := meals.foldl groupStep []

/-- The distinct dates of the meal sequence, in first-seen order. -/
def mealDates (meals : List Meal) : List (List Char) :=
  firstSeen (meals.map Meal.short_date)

/-- The last meal of the sequence with the given date whose title belongs to
the list. -/
def lastSlot (titles : List (List Char)) (meals : List Meal) (dt : List Char) :
    Option Meal :=
  (meals.filter (fun m => decide (m.short_date = dt ∧ m.title ∈ titles))).getLast?

/-- The titles that populate the lunch slot. -/
def lunchTitles : List (List Char) := [S "Brunch", S "Lunch"]

/-- The titles that populate the dinner slot. -/
def dinnerTitles : List (List Char) := [S "Dinner"]

structure RawMeal where
  title : List Char
  startdate : List Char
  enddate : List Char
  description : List Char
deriving DecidableEq

/-- `parseEssies` of the source. -/
def parseEssies (dec : List Char → List Char) (meals : List RawMeal) :
    Option (List Char) :=
  match meals.head? with
  | none => none
  | some m =>
    match (splitByM boldM m.description).find?
        (fun line => containsSub (toLowerL line) (S "special")) with
    | none => none
    | some special =>
      if special.isEmpty then none
      else
        let food := ((splitByM (ciLitM (S "special")) (dec special))[1]?).getD []
        some (trimL (stripHtmlTags food))

/-! ### Generic helper lemmas -/

theorem prefixOfIff : ∀ (p l : List Char), p.isPrefixOf l = true ↔ ∃ t, l = p ++ t
  | [], l => by simp [List.isPrefixOf]
  | _ :: _, [] => by simp [List.isPrefixOf]
  | c :: cs, d :: ds => by
    simp only [List.isPrefixOf, Bool.and_eq_true, beq_iff_eq, List.cons_append]
    rw [prefixOfIff cs ds]
    constructor
    · rintro ⟨rfl, t, rfl⟩
      exact ⟨t, rfl⟩
    · rintro ⟨t, ht⟩
      injection ht with h1 h2
      exact ⟨h1.symm, t, h2⟩

theorem containsSub_iff :
    ∀ (l pat : List Char), containsSub l pat = true ↔ ∃ x y, l = x ++ pat ++ y
  | [], pat => by
    simp only [containsSub, List.isEmpty_iff]
    constructor
    · rintro rfl
      exact ⟨[], [], rfl⟩
    · rintro ⟨x, y, h⟩
      rcases List.append_eq_nil.mp h.symm with ⟨h1, h2⟩
      exact (List.append_eq_nil.mp h1).2
  | c :: cs, pat => by
    simp only [containsSub, Bool.or_eq_true]
    rw [prefixOfIff, containsSub_iff cs pat]
    constructor
    · rintro (⟨t, ht⟩ | ⟨x, y, rfl⟩)
      · exact ⟨[], t, by simpa using ht⟩
      · exact ⟨c :: x, y, rfl⟩
    · rintro ⟨x, y, h⟩
      match x, h with
      | [], h => exact Or.inl ⟨y, by simpa using h⟩
      | e :: x, h =>
        injection h with h1 h2
        exact Or.inr ⟨x, y, h2⟩

theorem contains_mono {v pat : List Char} (u w : List Char)
    (h : containsSub v pat = true) : containsSub (u ++ v ++ w) pat = true := by
  rcases (containsSub_iff v pat).1 h with ⟨x, y, rfl⟩
  exact (containsSub_iff _ pat).2 ⟨u ++ x, y ++ w, by simp⟩

/-- Any occurrence of `pat` in `u ++ v` lies inside `u`, inside `v`, or
spans the seam with a non-trivial split of `pat`. -/
theorem contains_append_cases {u v pat : List Char}
    (h : containsSub (u ++ v) pat = true) :
    containsSub u pat = true ∨ containsSub v pat = true ∨
      ∃ p q, pat = p ++ q ∧ p ≠ [] ∧ q ≠ [] ∧
        (∃ u0, u = u0 ++ p) ∧ (∃ v1, v = q ++ v1) := by
  rcases (containsSub_iff _ pat).1 h with ⟨x, y, hxy⟩
  have hxy2 : x ++ (pat ++ y) = u ++ v := by simpa [List.append_assoc] using hxy.symm
  rcases List.append_eq_append_iff.mp hxy2 with ⟨a, ha, hb⟩ | ⟨c, hc, hd⟩
  · -- u = x ++ a, pat ++ y = a ++ v
    rcases List.append_eq_append_iff.mp hb with ⟨b, hab, hby⟩ | ⟨b, hpat, hv⟩
    · -- a = pat ++ b: pat inside u
      exact Or.inl ((containsSub_iff u pat).2 ⟨x, b, by rw [ha, hab, List.append_assoc]⟩)
    · -- pat = a ++ b, v = b ++ y
      rcases eq_or_ne a [] with rfl | hane
      · -- pat = b, v = pat ++ y
        exact Or.inr (Or.inl ((containsSub_iff v pat).2 ⟨[], y, by simp [hv, hpat]⟩))
      · rcases eq_or_ne b [] with rfl | hbne
        · -- pat = a, u = x ++ pat
          refine Or.inl ((containsSub_iff u pat).2 ⟨x, [], ?_⟩)
          rw [ha, hpat]
          simp
        · exact Or.inr (Or.inr ⟨a, b, hpat, hane, hbne, ⟨x, ha⟩, ⟨y, hv⟩⟩)
  · -- x = u ++ c, v = c ++ pat ++ y
    exact Or.inr (Or.inl ((containsSub_iff v pat).2 ⟨c, y, by rw [hd, List.append_assoc]⟩))

theorem pairwise_of_mem {α : Type} {R : α → α → Prop} :
    ∀ {l : List α}, (∀ a ∈ l, ∀ b ∈ l, R a b) → l.Pairwise R
  | [], _ => List.Pairwise.nil
  | x :: xs, h => by
    constructor
    · intro b hb
      exact h x (List.mem_cons_self x xs) b (List.mem_cons_of_mem x hb)
    · exact pairwise_of_mem (fun a ha b hb =>
        h a (List.mem_cons_of_mem x ha) b (List.mem_cons_of_mem x hb))

theorem pairwise_decomp {α : Type} {R : α → α → Prop} {L l1 l2 l3 : List α} {x y : α}
    (hp : L.Pairwise R) (hL : L = l1 ++ x :: l2 ++ y :: l3) : R x y := by
  subst hL
  exact (List.pairwise_append.mp hp).2.2 x
    (List.mem_append_right _ (List.mem_cons_self x l2)) y (List.mem_cons_self y l3)

theorem findIdx_congr {α : Type} {p q : α → Bool} :
    ∀ {l : List α}, (∀ a ∈ l, p a = q a) → l.findIdx p = l.findIdx q
  | [], _ => rfl
  | x :: xs, h => by
    rw [List.findIdx_cons, List.findIdx_cons, h x (List.mem_cons_self x xs),
      findIdx_congr (fun a ha => h a (List.mem_cons_of_mem x ha))]

/-! ### Scan machinery lemmas -/

theorem splitGo_ne_nil (m : List Char → Option Nat) :
    ∀ (fuel : Nat) (l : List Char), splitGo m fuel l ≠ []
  | 0, l => by simp [splitGo]
  | _fuel + 1, [] => by simp [splitGo]
  | fuel + 1, c :: cs => by
    simp only [splitGo]
    split
    · simp
    · split <;> simp

theorem splitGo_nil (m : List Char → Option Nat) (fuel : Nat) :
    splitGo m fuel [] = [[]] := by
  cases fuel <;> simp [splitGo]

theorem splitGo_fuel (m : List Char → Option Nat) :
    ∀ (f g : Nat) (l : List Char), l.length ≤ f → l.length ≤ g →
      splitGo m f l = splitGo m g l
  | f, g, [], _, _ => by rw [splitGo_nil, splitGo_nil]
  | 0, _, c :: cs, hf, _ => absurd hf (by simp)
  | _ + 1, 0, c :: cs, _, hg => absurd hg (by simp)
  | f + 1, g + 1, c :: cs, hf, hg => by
    have hf2 : cs.length ≤ f := by simpa using hf
    have hg2 : cs.length ≤ g := by simpa using hg
    cases h : m (c :: cs) with
    | some n =>
      have hd : ((c :: cs).drop (max n 1)).length ≤ cs.length := by
        simp only [List.length_drop, List.length_cons]
        omega
      simp only [splitGo, h]
      rw [splitGo_fuel m f g _ (le_trans hd hf2) (le_trans hd hg2)]
    | none =>
      simp only [splitGo, h]
      rw [splitGo_fuel m f g cs hf2 hg2]

theorem replGo_fuel (m : List Char → Option Nat) (repl : List Char) :
    ∀ (f g : Nat) (l : List Char), l.length ≤ f → l.length ≤ g →
      replGo m repl f l = replGo m repl g l
  | f, g, [], _, _ => by cases f <;> cases g <;> simp [replGo]
  | 0, _, c :: cs, hf, _ => absurd hf (by simp)
  | _ + 1, 0, c :: cs, _, hg => absurd hg (by simp)
  | f + 1, g + 1, c :: cs, hf, hg => by
    have hf2 : cs.length ≤ f := by simpa using hf
    have hg2 : cs.length ≤ g := by simpa using hg
    cases h : m (c :: cs) with
    | some n =>
      have hd : ((c :: cs).drop (max n 1)).length ≤ cs.length := by
        simp only [List.length_drop, List.length_cons]
        omega
      simp only [replGo, h]
      rw [replGo_fuel m repl f g _ (le_trans hd hf2) (le_trans hd hg2)]
    | none =>
      simp only [replGo, h]
      rw [replGo_fuel m repl f g cs hf2 hg2]

theorem replGo_eq_intercalate (m : List Char → Option Nat) (repl : List Char) :
    ∀ (fuel : Nat) (l : List Char), l.length ≤ fuel →
      replGo m repl fuel l = intercalateL repl (splitGo m fuel l)
  | fuel, [], _ => by cases fuel <;> simp [replGo, splitGo, intercalateL]
  | 0, c :: cs, h => absurd h (by simp)
  | fuel + 1, c :: cs, h => by
    have h2 : cs.length ≤ fuel := by simpa using h
    cases hm : m (c :: cs) with
    | some n =>
      have hd : ((c :: cs).drop (max n 1)).length ≤ cs.length := by
        simp only [List.length_drop, List.length_cons]
        omega
      simp only [replGo, splitGo, hm]
      rw [replGo_eq_intercalate m repl fuel _ (le_trans hd h2)]
      rcases hsp : splitGo m fuel ((c :: cs).drop (max n 1)) with _ | ⟨s, ss⟩
      · exact absurd hsp (splitGo_ne_nil m _ _)
      · simp [intercalateL]
    | none =>
      simp only [replGo, splitGo, hm]
      rw [replGo_eq_intercalate m repl fuel cs h2]
      rcases hsp : splitGo m fuel cs with _ | ⟨s, ss⟩
      · exact absurd hsp (splitGo_ne_nil m _ _)
      · cases ss with
        | nil => simp [hsp, intercalateL]
        | cons s2 ss2 => simp [hsp, intercalateL]

/-- A global replace joins the split segments with the replacement. -/
theorem replaceByM_eq_intercalate (m : List Char → Option Nat) (repl l : List Char) :
    replaceByM m repl l = intercalateL repl (splitByM m l) :=
  replGo_eq_intercalate m repl l.length l (le_refl _)

theorem splitGo_head_pre (m : List Char → Option Nat) :
    ∀ (fuel : Nat) (l s : List Char) (ss : List (List Char)),
      splitGo m fuel l = s :: ss → ∃ t, l = s ++ t
  | 0, l, s, ss, h => by
    simp only [splitGo] at h
    injection h with h1 _
    exact ⟨[], by simp [h1]⟩
  | _fuel + 1, [], s, ss, h => by
    simp only [splitGo] at h
    injection h with h1 _
    exact ⟨[], by simp [← h1]⟩
  | fuel + 1, c :: cs, s, ss, h => by
    cases hm : m (c :: cs) with
    | some n =>
      simp only [splitGo, hm] at h
      injection h with h1 _
      exact ⟨c :: cs, by simp [← h1]⟩
    | none =>
      rcases hsp : splitGo m fuel cs with _ | ⟨s0, ss0⟩
      · exact absurd hsp (splitGo_ne_nil m _ _)
      · simp only [splitGo, hm, hsp] at h
        injection h with h1 h2
        obtain ⟨t, ht⟩ := splitGo_head_pre m fuel cs s0 ss0 hsp
        exact ⟨t, by simp [← h1, ht]⟩

theorem litM_none {pat l : List Char} (hp : pat ≠ []) (h : litM pat l = none) :
    pat.isPrefixOf l = false := by
  simp only [litM] at h
  by_cases hpre : pat.isPrefixOf l
  · rw [if_pos (by simp [hpre, List.isEmpty_iff, hp])] at h
    exact absurd h (by simp)
  · cases hb : pat.isPrefixOf l
    · rfl
    · exact absurd hb hpre

theorem litM_some {pat l : List Char} {n : Nat} (h : litM pat l = some n) :
    pat.isPrefixOf l = true := by
  simp only [litM] at h
  by_cases hpre : (!pat.isEmpty && pat.isPrefixOf l) = true
  · exact (Bool.and_eq_true _ _ |>.mp hpre).2
  · rw [if_neg hpre] at h
    exact absurd h (by simp)

/-- No segment of a literal split contains the pattern. -/
theorem splitGo_lit_free (pat : List Char) (hp : pat ≠ []) :
    ∀ (fuel : Nat) (l : List Char), l.length ≤ fuel →
      ∀ s ∈ splitGo (litM pat) fuel l, containsSub s pat = false
  | fuel, [], _, s, hs => by
    rw [splitGo_nil] at hs
    simp only [List.mem_singleton] at hs
    subst hs
    simp [containsSub, List.isEmpty_iff, hp]
  | 0, c :: cs, h, _, _ => absurd h (by simp)
  | fuel + 1, c :: cs, h, s, hs => by
    have h2 : cs.length ≤ fuel := by simpa using h
    cases hm : litM pat (c :: cs) with
    | some n =>
      simp only [splitGo, hm] at hs
      rcases List.mem_cons.mp hs with rfl | hs2
      · simp [containsSub, List.isEmpty_iff, hp]
      · have hd : ((c :: cs).drop (max n 1)).length ≤ fuel := by
          simp only [List.length_drop, List.length_cons]
          omega
        exact splitGo_lit_free pat hp fuel _ hd s hs2
    | none =>
      rcases hsp : splitGo (litM pat) fuel cs with _ | ⟨s0, ss0⟩
      · exact absurd hsp (splitGo_ne_nil _ _ _)
      · simp only [splitGo, hm, hsp] at hs
        rcases List.mem_cons.mp hs with rfl | hs2
        · have hfree : containsSub s0 pat = false :=
            splitGo_lit_free pat hp fuel cs h2 s0 (hsp ▸ List.mem_cons_self s0 ss0)
          have hnp : pat.isPrefixOf (c :: cs) = false := litM_none hp hm
          have hnp2 : pat.isPrefixOf (c :: s0) = false := by
            by_cases hx : pat.isPrefixOf (c :: s0) = true
            · obtain ⟨t, ht⟩ := (prefixOfIff _ _).1 hx
              obtain ⟨t2, ht2⟩ := splitGo_head_pre _ fuel cs s0 ss0 hsp
              have hko : pat.isPrefixOf (c :: cs) = true := by
                refine (prefixOfIff _ _).2 ⟨t ++ t2, ?_⟩
                rw [ht2, ← List.append_assoc, ← ht]
                rfl
              rw [hko] at hnp
              exact absurd hnp (by simp)
            · cases hb : pat.isPrefixOf (c :: s0)
              · rfl
              · exact absurd hb hx
          simp [containsSub, hnp2, hfree]
        · exact splitGo_lit_free pat hp fuel cs h2 s
            (by rw [hsp]; exact List.mem_cons_of_mem s0 hs2)

/-- At least two split segments exactly when the pattern occurs. -/
theorem splitGo_length_contains (pat : List Char) (hp : pat ≠ []) :
    ∀ (fuel : Nat) (l : List Char), l.length ≤ fuel →
      (2 ≤ (splitGo (litM pat) fuel l).length ↔ containsSub l pat = true)
  | fuel, [], _ => by
    rw [splitGo_nil]
    simp [containsSub, List.isEmpty_iff, hp]
  | 0, c :: cs, h => absurd h (by simp)
  | fuel + 1, c :: cs, h => by
    have h2 : cs.length ≤ fuel := by simpa using h
    cases hm : litM pat (c :: cs) with
    | some n =>
      have hpre : pat.isPrefixOf (c :: cs) = true := litM_some hm
      rcases hsp : splitGo (litM pat) fuel ((c :: cs).drop (max n 1)) with _ | ⟨s, ss⟩
      · exact absurd hsp (splitGo_ne_nil (litM pat) fuel _)
      · simp only [splitGo, hm, hsp]
        constructor
        · intro _
          simp [containsSub, hpre]
        · intro _
          simp
    | none =>
      have hnp : pat.isPrefixOf (c :: cs) = false := litM_none hp hm
      rcases hsp : splitGo (litM pat) fuel cs with _ | ⟨s0, ss0⟩
      · exact absurd hsp (splitGo_ne_nil _ _ _)
      · have hiff := splitGo_length_contains pat hp fuel cs h2
        rw [hsp] at hiff
        simp only [splitGo, hm, hsp]
        simpa [containsSub, hnp] using hiff

theorem optMapM_isSome {α β : Type} (f : α → Option β) :
    ∀ l : List α, (optMapM f l).isSome = true ↔ ∀ a ∈ l, (f a).isSome = true
  | [] => by simp [optMapM]
  | x :: xs => by
    simp only [optMapM]
    cases hx : f x with
    | none => simp [hx]
    | some y =>
      rw [List.forall_mem_cons]
      cases hxs : optMapM f xs with
      | none => simpa [hx, hxs] using (optMapM_isSome f xs)
      | some ys => simpa [hx, hxs] using (optMapM_isSome f xs)

/-! ### Keyword matching is invariant under trimming and bolding -/

theorem kwGood_all : keywords.all kwGood = true := by decide

theorem kwGood_of_mem {k : List Char} (hk : k ∈ keywords) : kwGood k = true :=
  List.all_eq_true.mp kwGood_all k hk

theorem rev_split (m : List Char) :
    m = (m.reverse.dropWhile jsWS).reverse ++ (m.reverse.takeWhile jsWS).reverse := by
  conv_lhs => rw [← m.reverse_reverse]
  rw [← List.reverse_append, List.takeWhile_append_dropWhile]

theorem trim_decomp (l : List Char) :
    ∃ w1 w2, l = w1 ++ trimL l ++ w2 ∧
      (∀ c ∈ w1, jsWS c = true) ∧ (∀ c ∈ w2, jsWS c = true) := by
  refine ⟨l.takeWhile jsWS, ((l.dropWhile jsWS).reverse.takeWhile jsWS).reverse, ?_,
    fun c hc => List.mem_takeWhile_imp hc,
    fun c hc => List.mem_takeWhile_imp (List.mem_reverse.mp hc)⟩
  conv_lhs => rw [← List.takeWhile_append_dropWhile jsWS l]
  rw [List.append_assoc]
  congr 1
  exact rev_split (l.dropWhile jsWS)

theorem not_contains_of_ws {w k : List Char} (hw : ∀ c ∈ w, jsWS c = true)
    (hne : k ≠ []) (hh : headNotWS k = true) : containsSub w k = false := by
  cases hb : containsSub w k
  · rfl
  · exfalso
    obtain ⟨x, y, hxy⟩ := (containsSub_iff w k).1 hb
    match k, hne, hh with
    | c :: k2, _, hh =>
      have hc : c ∈ w := by
        rw [hxy]
        exact List.mem_append_left _ (List.mem_append_right _ (List.mem_cons_self c k2))
      have h2 := hw c hc
      simp [headNotWS, h2] at hh

theorem last_ws_absurd {q k : List Char} (hq : ∀ c ∈ q, jsWS c = true)
    (hqne : q ≠ []) (hsuf : ∃ p, k = p ++ q) (hl : lastNotWS k = true) : False := by
  obtain ⟨p, rfl⟩ := hsuf
  obtain ⟨c, hc⟩ : ∃ c, q.getLast? = some c := by
    cases hq2 : q.getLast? with
    | none => exact absurd (List.getLast?_eq_none_iff.mp hq2) hqne
    | some c => exact ⟨c, rfl⟩
  have hws := hq c (List.mem_of_getLast?_eq_some hc)
  simp [lastNotWS, List.getLast?_append, hc, Option.or_some, hws] at hl

theorem contains_ws_pad {t k w1 w2 : List Char}
    (hw1 : ∀ c ∈ w1, jsWS c = true) (hw2 : ∀ c ∈ w2, jsWS c = true)
    (hne : k ≠ []) (hh : headNotWS k = true) (hl : lastNotWS k = true) :
    containsSub (w1 ++ t ++ w2) k = containsSub t k := by
  cases hb : containsSub t k
  · cases hb2 : containsSub (w1 ++ t ++ w2) k
    · rfl
    · exfalso
      rw [List.append_assoc] at hb2
      rcases contains_append_cases hb2 with h | h | ⟨p, q, hpq, hpne, _hqne, ⟨u0, hu⟩, _⟩
      · rw [not_contains_of_ws hw1 hne hh] at h
        exact Bool.noConfusion h
      · rcases contains_append_cases h with h3 | h3 | ⟨p, q, hpq, _hpne, hqne, _, ⟨v1, hv⟩⟩
        · rw [hb] at h3
          exact Bool.noConfusion h3
        · rw [not_contains_of_ws hw2 hne hh] at h3
          exact Bool.noConfusion h3
        · refine last_ws_absurd ?_ hqne ⟨p, hpq⟩ hl
          intro c hc
          exact hw2 c (by rw [hv]; exact List.mem_append_left _ hc)
      · match p, hpne, hpq with
        | d :: p2, _, hpq =>
          have hd : d ∈ w1 := by
            rw [hu]
            exact List.mem_append_right _ (List.mem_cons_self d p2)
          have hwd := hw1 d hd
          rw [hpq] at hh
          simp [headNotWS, hwd] at hh
  · exact contains_mono w1 w2 hb

theorem contains_wrap {t k : List Char}
    (h1 : containsSub (S "<strong>") k = false)
    (h2 : containsSub (S "</strong>") k = false)
    (hx : k.all (fun c => c ≠ '<' && c ≠ '>') = true) :
    containsSub (S "<strong>" ++ t ++ S "</strong>") k = containsSub t k := by
  cases hb : containsSub t k
  · cases hb2 : containsSub (S "<strong>" ++ t ++ S "</strong>") k
    · rfl
    · exfalso
      rw [List.append_assoc] at hb2
      rcases contains_append_cases hb2 with h | h | ⟨p, q, hpq, hpne, _hqne, ⟨u0, hu⟩, _⟩
      · rw [h1] at h
        exact Bool.noConfusion h
      · rcases contains_append_cases h with h3 | h3 | ⟨p, q, hpq, _hpne, hqne, _, ⟨v1, hv⟩⟩
        · rw [hb] at h3
          exact Bool.noConfusion h3
        · rw [h2] at h3
          exact Bool.noConfusion h3
        · match q, hqne, hv with
          | d :: q2, _, hv =>
            rw [show S "</strong>" = '<' :: S "/strong>" from rfl] at hv
            rw [List.cons_append] at hv
            injection hv with hd _
            have hdk : d ∈ k := by
              rw [hpq]
              exact List.mem_append_right _ (List.mem_cons_self d q2)
            have := List.all_eq_true.mp hx d hdk
            rw [← hd] at this
            simp at this
      · -- p is a non-empty suffix of "<strong>", so its last char is the
        -- closing angle bracket, which cannot belong to the keyword
        have hlast : p.getLast? = some '>' := by
          have hgl : (S "<strong>").getLast? = some '>' := by decide
          rw [hu, List.getLast?_append] at hgl
          obtain ⟨c, hc⟩ : ∃ c, p.getLast? = some c := by
            cases hp2 : p.getLast? with
            | none => exact absurd (List.getLast?_eq_none_iff.mp hp2) hpne
            | some c => exact ⟨c, rfl⟩
          rw [hc] at hgl
          rw [hc]
          simpa using hgl
        have hgt : '>' ∈ k := by
          rw [hpq]
          exact List.mem_append_left _ (List.mem_of_getLast?_eq_some hlast)
        have := List.all_eq_true.mp hx '>' hgt
        simp at this
  · exact contains_mono (S "<strong>") (S "</strong>") hb

theorem toLowerL_append (u v : List Char) :
    toLowerL (u ++ v) = toLowerL u ++ toLowerL v := List.map_append _ u v

theorem toLowerL_ws {w : List Char} (hw : ∀ c ∈ w, jsWS c = true) :
    ∀ c ∈ toLowerL w, jsWS c = true := by
  intro c hc
  rcases List.mem_map.mp hc with ⟨d, hd, rfl⟩
  have h2 := hw d hd
  simp only [jsWS, Bool.or_eq_true, decide_eq_true_eq] at h2
  rcases h2 with ((((rfl | rfl) | rfl) | rfl) | rfl) | rfl <;> decide

theorem kwGood_spec {k : List Char} (hk : kwGood k = true) :
    k ≠ [] ∧ containsSub (S "<strong>") k = false ∧ containsSub (S "</strong>") k = false ∧
      k.all (fun c => c ≠ '<' && c ≠ '>') = true ∧ headNotWS k = true ∧ lastNotWS k = true := by
  simp only [kwGood, Bool.and_eq_true] at hk
  obtain ⟨⟨⟨⟨⟨h1, h2⟩, h3⟩, h4⟩, h5⟩, h6⟩ := hk
  refine ⟨?_, ?_, ?_, h4, h5, h6⟩
  · intro hkk
    rw [hkk] at h1
    simp at h1
  · simpa using h2
  · simpa using h3

/-- Trimming does not change which keywords an item matches. -/
theorem kwMatch_trim {k : List Char} (hk : kwGood k = true) (a : List Char) :
    kwMatch (trimL a) k = kwMatch a k := by
  obtain ⟨hne, _, _, _, hh, hl⟩ := kwGood_spec hk
  obtain ⟨w1, w2, hdec, hw1, hw2⟩ := trim_decomp a
  unfold kwMatch
  conv_rhs => rw [hdec]
  rw [toLowerL_append, toLowerL_append,
    contains_ws_pad (toLowerL_ws hw1) (toLowerL_ws hw2) hne hh hl]

/-- Bold-wrapping the trimmed item does not change which keywords it
matches. -/
theorem kwMatch_transform {k : List Char} (hk : kwGood k = true) (a : List Char) :
    kwMatch (boldWrap (trimL a)) k = kwMatch a k := by
  obtain ⟨_, h1, h2, hx, _, _⟩ := kwGood_spec hk
  unfold kwMatch boldWrap
  rw [toLowerL_append, toLowerL_append,
    show toLowerL (S "<strong>") = S "<strong>" from by decide,
    show toLowerL (S "</strong>") = S "</strong>" from by decide,
    contains_wrap h1 h2 hx]
  exact kwMatch_trim hk a

theorem minKwIdx_transform (a : List Char) :
    minKwIdx (boldWrap (trimL a)) = minKwIdx a :=
  findIdx_congr (fun k hk => kwMatch_transform (kwGood_of_mem hk) a)

theorem minKwIdx_trim (a : List Char) : minKwIdx (trimL a) = minKwIdx a :=
  findIdx_congr (fun k hk => kwMatch_trim (kwGood_of_mem hk) a)

theorem minKwIdx_le (a : List Char) : minKwIdx a ≤ keywords.length :=
  List.findIdx_le_length _

/-- An item matching no keyword has the maximal index. -/
theorem minKwIdx_of_unmatched {a : List Char} (h : matchAny keywords a = false) :
    minKwIdx a = keywords.length := by
  refine List.findIdx_eq_length_of_false ?_
  intro k hk
  by_cases h2 : kwMatch a k = true
  · exact absurd (List.any_eq_true.mpr ⟨k, hk, h2⟩) (by simp [matchAny] at h ⊢; exact h)
  · simpa using h2

/-! ### sortMains loop lemmas -/

theorem sortMainsLoop_spec :
    ∀ (ks items : List (List Char)),
      (∀ x ∈ (sortMainsLoop ks items).2, x ∈ items) ∧
      (∀ x ∈ (sortMainsLoop ks items).2, ∀ k ∈ ks, kwMatch x k = false) ∧
      ∃ key : List (List Char),
        (sortMainsLoop ks items).1 = key.map (fun i => boldWrap (trimL i)) ∧
        (∀ a ∈ key, a ∈ items) ∧
        (∀ a ∈ key, matchAny ks a = true) ∧
        key.Pairwise (fun a b =>
          ks.findIdx (fun k => kwMatch a k) ≤ ks.findIdx (fun k => kwMatch b k))
  | [], items => by
    refine ⟨fun x hx => by simpa [sortMainsLoop] using hx, ?_, [], by simp [sortMainsLoop], ?_, ?_, ?_⟩ <;>
      simp [sortMainsLoop]
  | k :: ks, items => by
    obtain ⟨hsub, hnm, key, hmap, hkeysub, hkeymatch, hpw⟩ :=
      sortMainsLoop_spec ks (items.filter (fun i => !kwMatch i k))
    simp only [sortMainsLoop]
    refine ⟨?_, ?_, (items.filter (fun i => kwMatch i k)) ++ key, ?_, ?_, ?_, ?_⟩
    · intro x hx
      exact List.mem_of_mem_filter (hsub x hx)
    · intro x hx k2 hk2
      rcases List.mem_cons.mp hk2 with rfl | hk3
      · have := List.of_mem_filter (hsub x hx)
        simpa using this
      · exact hnm x hx k2 hk3
    · rw [List.map_append, hmap]
    · intro a ha
      rcases List.mem_append.mp ha with h | h
      · exact List.mem_of_mem_filter h
      · exact List.mem_of_mem_filter (hkeysub a h)
    · intro a ha
      rcases List.mem_append.mp ha with h | h
      · have := List.of_mem_filter h
        simp only [matchAny, List.any_cons, Bool.or_eq_true]
        exact Or.inl this
      · have := hkeymatch a h
        simp only [matchAny, List.any_cons, Bool.or_eq_true]
        simp only [matchAny] at this
        exact Or.inr this
    · refine List.pairwise_append.mpr ⟨?_, ?_, ?_⟩
      · refine pairwise_of_mem ?_
        intro a ha b hb
        have hak := List.of_mem_filter ha
        rw [List.findIdx_cons, List.findIdx_cons, hak]
        simp
      · refine hpw.imp_of_mem ?_
        intro a b ha hb hrel
        have hak : kwMatch a k = false := by simpa using List.of_mem_filter (hkeysub a ha)
        have hbk : kwMatch b k = false := by simpa using List.of_mem_filter (hkeysub b hb)
        rw [List.findIdx_cons, List.findIdx_cons, hak, hbk]
        simpa using hrel
      · intro a ha b hb
        have hak := List.of_mem_filter ha
        rw [List.findIdx_cons, hak]
        simp

theorem sortMainsLoop_perm :
    ∀ (ks items : List (List Char)),
      (sortMainsLoop ks items).1.Perm
          ((items.filter (fun i => matchAny ks i)).map (fun i => boldWrap (trimL i))) ∧
      (sortMainsLoop ks items).2 = items.filter (fun i => !matchAny ks i)
  | [], items => by
    simp [sortMainsLoop, matchAny]
  | k :: ks, items => by
    obtain ⟨hperm, hrem⟩ := sortMainsLoop_perm ks (items.filter (fun i => !kwMatch i k))
    have hcons : ∀ i : List Char, matchAny (k :: ks) i = (kwMatch i k || matchAny ks i) := by
      intro i
      simp [matchAny]
    constructor
    · simp only [sortMainsLoop]
      have h1 : (items.filter (fun i => !kwMatch i k)).filter (fun i => matchAny ks i) =
          items.filter (fun i => !kwMatch i k && matchAny ks i) := by
        rw [List.filter_filter]
        exact List.filter_congr (fun a _ => by cases kwMatch a k <;> cases matchAny ks a <;> rfl)
      have h2 : (items.filter (fun i => matchAny (k :: ks) i)).filter (fun i => kwMatch i k) =
          items.filter (fun i => kwMatch i k) := by
        rw [List.filter_filter]
        exact List.filter_congr (fun a _ => by
          rw [hcons a]
          cases kwMatch a k <;> cases matchAny ks a <;> rfl)
      have h3 : (items.filter (fun i => matchAny (k :: ks) i)).filter (fun i => !kwMatch i k) =
          items.filter (fun i => !kwMatch i k && matchAny ks i) := by
        rw [List.filter_filter]
        exact List.filter_congr (fun a _ => by
          rw [hcons a]
          cases kwMatch a k <;> cases matchAny ks a <;> rfl)
      have hsplit := List.filter_append_perm (fun i => kwMatch i k)
        (items.filter (fun i => matchAny (k :: ks) i))
      rw [h2, h3] at hsplit
      refine ((hperm.append_left _).trans ?_)
      rw [h1]
      have := (hsplit.map (fun i => boldWrap (trimL i))).symm
      rw [List.map_append] at this
      exact this.symm
    · simp only [sortMainsLoop]
      rw [hrem, List.filter_filter]
      exact List.filter_congr (fun a _ => by
        rw [hcons a]
        cases kwMatch a k <;> cases matchAny ks a <;> rfl)

theorem filter_map_mix {α β : Type} (p : α → Bool) (f g : α → β) :
    ∀ l : List α, ((l.filter p).map f ++ (l.filter (fun x => !p x)).map g).Perm
      (l.map (fun x => if p x then f x else g x))
  | [] => by simp
  | x :: l => by
    cases hx : p x
    · simp only [List.filter_cons, hx, Bool.not_false, if_neg, List.map_cons, ite_false,
        Bool.false_eq_true, if_true]
      exact (List.perm_middle).trans ((filter_map_mix p f g l).cons (g x))
    · simp only [List.filter_cons, hx, Bool.not_true, if_pos, List.map_cons, ite_true,
        Bool.true_eq_false, if_false]
      exact (filter_map_mix p f g l).cons (f x)

/-- The output of `sortMains` is ordered by earliest-matching-keyword
index, with unmatched items (index `keywords.length`) at the end. -/
theorem sortMains_pairwise (lst : List (List Char)) :
    (sortMains lst).Pairwise (fun a b => minKwIdx a ≤ minKwIdx b) := by
  obtain ⟨hsub, hnm, key, hmap, hkeysub, hkeymatch, hpw⟩ :=
    sortMainsLoop_spec keywords (firstSeen lst)
  have hunm : ∀ x ∈ (sortMainsLoop keywords (firstSeen lst)).2,
      matchAny keywords x = false := by
    intro x hx
    cases hq : matchAny keywords x
    · rfl
    · simp only [matchAny] at hq
      obtain ⟨k, hk, hkm⟩ := List.any_eq_true.mp hq
      rw [hnm x hx k hk] at hkm
      exact Bool.noConfusion hkm
  unfold sortMains
  refine List.pairwise_append.mpr ⟨?_, ?_, ?_⟩
  · rw [hmap, List.pairwise_map]
    refine hpw.imp_of_mem ?_
    intro a b _ _ hrel
    rw [minKwIdx_transform, minKwIdx_transform]
    exact hrel
  · refine pairwise_of_mem ?_
    intro a ha b hb
    rcases List.mem_map.mp ha with ⟨x, hx, rfl⟩
    rcases List.mem_map.mp hb with ⟨y, hy, rfl⟩
    rw [minKwIdx_trim, minKwIdx_trim, minKwIdx_of_unmatched (hunm x hx),
      minKwIdx_of_unmatched (hunm y hy)]
  · intro a ha b hb
    rcases List.mem_map.mp hb with ⟨y, hy, rfl⟩
    rw [minKwIdx_trim, minKwIdx_of_unmatched (hunm y hy)]
    exact minKwIdx_le a

/-- Each distinct input item appears exactly once in the output of
`sortMains`, trimmed, and bolded when it matches a keyword. -/
theorem sortMains_perm (lst : List (List Char)) :
    (sortMains lst).Perm ((firstSeen lst).map transformItem) := by
  obtain ⟨hperm, hrem⟩ := sortMainsLoop_perm keywords (firstSeen lst)
  have h2 : (List.map trimL (sortMainsLoop keywords (firstSeen lst)).2).Perm
      (((firstSeen lst).filter (fun i => !matchAny keywords i)).map trimL) := by
    rw [hrem]
  have h1 : (sortMains lst).Perm
      (((firstSeen lst).filter (fun i => matchAny keywords i)).map
          (fun i => boldWrap (trimL i)) ++
        ((firstSeen lst).filter (fun i => !matchAny keywords i)).map trimL) := by
    show ((sortMainsLoop keywords (firstSeen lst)).1 ++
      List.map trimL (sortMainsLoop keywords (firstSeen lst)).2).Perm _
    exact hperm.append h2
  exact h1.trans (filter_map_mix (fun i => matchAny keywords i)
    (fun i => boldWrap (trimL i)) trimL (firstSeen lst))

/-! ### Stability of the block sort -/

theorem blockKey_ge (b : List Char) : -1 ≤ blockKey b := by
  unfold blockKey
  cases orderL.findIdx? (fun v => v.isPrefixOf b) with
  | none => simp
  | some n => simp
    <;> omega

theorem filter_orderedInsert (x : List Char) (k : Int) (s : List (List Char)) :
    (List.orderedInsert (fun a b => blockKey a ≤ blockKey b) x s).filter
        (fun b => decide (blockKey b = k)) =
      if blockKey x = k then x :: s.filter (fun b => decide (blockKey b = k))
      else s.filter (fun b => decide (blockKey b = k)) := by
  rw [List.orderedInsert_eq_take_drop, List.filter_append, List.filter_cons]
  by_cases hx : blockKey x = k
  · have htake : (s.takeWhile (fun b => decide ¬(blockKey x ≤ blockKey b))).filter
        (fun b => decide (blockKey b = k)) = [] := by
      rw [List.filter_eq_nil_iff]
      intro b hb
      have h2 := List.mem_takeWhile_imp hb
      simp only [decide_eq_true_eq] at h2 ⊢
      omega
    rw [htake, if_pos (by simpa using hx)]
    conv_rhs => rw [← List.takeWhile_append_dropWhile
      (fun b => decide ¬(blockKey x ≤ blockKey b)) s]
    rw [if_pos hx, List.filter_append, htake]
    simp
  · have hxp : ¬ (decide (blockKey x = k) = true) := by simpa using hx
    rw [if_neg hxp, if_neg hx]
    conv_rhs => rw [← List.takeWhile_append_dropWhile
      (fun b => decide ¬(blockKey x ≤ blockKey b)) s]
    rw [List.filter_append]

/-- The block sort is stable: filtering the output and the input by any key
value gives the same list. -/
theorem sortBlocks_stable (k : Int) :
    ∀ l : List (List Char),
      (sortBlocks l).filter (fun b => decide (blockKey b = k)) =
        l.filter (fun b => decide (blockKey b = k))
  | [] => rfl
  | x :: l => by
    show (List.orderedInsert (fun a b => blockKey a ≤ blockKey b) x
        (List.insertionSort (fun a b => blockKey a ≤ blockKey b) l)).filter
        (fun b => decide (blockKey b = k)) = _
    rw [filter_orderedInsert, List.filter_cons]
    by_cases hx : blockKey x = k
    · rw [if_pos hx, if_pos (by simpa using hx)]
      exact congrArg (x :: ·) (sortBlocks_stable k l)
    · rw [if_neg hx, if_neg (by simpa using hx)]
      exact sortBlocks_stable k l

/-! ### groupMealsByDay characterization -/

theorem firstSeen_aux_mem {α : Type} [DecidableEq α] :
    ∀ (l acc : List α) (x : α),
      (x ∈ l.foldl (fun acc y => if y ∈ acc then acc else acc ++ [y]) acc) ↔
        x ∈ acc ∨ x ∈ l
  | [], acc, x => by simp
  | y :: l, acc, x => by
    simp only [List.foldl_cons]
    by_cases hy : y ∈ acc
    · rw [if_pos hy, firstSeen_aux_mem l acc x]
      constructor
      · rintro (h | h)
        · exact Or.inl h
        · exact Or.inr (List.mem_cons_of_mem y h)
      · rintro (h | h)
        · exact Or.inl h
        · rcases List.mem_cons.mp h with rfl | h2
          · exact Or.inl hy
          · exact Or.inr h2
    · rw [if_neg hy, firstSeen_aux_mem l (acc ++ [y]) x]
      simp only [List.mem_append, List.mem_singleton, List.mem_cons]
      tauto

theorem firstSeen_mem {α : Type} [DecidableEq α] (l : List α) (x : α) :
    x ∈ firstSeen l ↔ x ∈ l := by
  unfold firstSeen
  rw [firstSeen_aux_mem]
  simp

theorem firstSeen_aux_nodup {α : Type} [DecidableEq α] :
    ∀ (l acc : List α), acc.Nodup →
      (l.foldl (fun acc y => if y ∈ acc then acc else acc ++ [y]) acc).Nodup
  | [], _, h => h
  | y :: l, acc, h => by
    simp only [List.foldl_cons]
    by_cases hy : y ∈ acc
    · rw [if_pos hy]
      exact firstSeen_aux_nodup l acc h
    · rw [if_neg hy]
      refine firstSeen_aux_nodup l _ ?_
      simp [List.nodup_append, h, hy]

theorem firstSeen_nodup {α : Type} [DecidableEq α] (l : List α) :
    (firstSeen l).Nodup :=
  firstSeen_aux_nodup l [] List.nodup_nil

theorem firstSeen_snoc {α : Type} [DecidableEq α] (l : List α) (x : α) :
    firstSeen (l ++ [x]) =
      if x ∈ firstSeen l then firstSeen l else firstSeen l ++ [x] := by
  unfold firstSeen
  rw [List.foldl_append]
  rfl

theorem mealDates_snoc (ms : List Meal) (m : Meal) :
    mealDates (ms ++ [m]) =
      if m.short_date ∈ mealDates ms then mealDates ms
      else mealDates ms ++ [m.short_date] := by
  unfold mealDates
  rw [List.map_append, show List.map Meal.short_date [m] = [m.short_date] from rfl,
    firstSeen_snoc]
  exact ite_congr rfl (fun _ => rfl) (fun _ => rfl)

theorem lastSlot_snoc (titles : List (List Char)) (ms : List Meal) (m : Meal)
    (dt : List Char) :
    lastSlot titles (ms ++ [m]) dt =
      if m.short_date = dt ∧ m.title ∈ titles then some m
      else lastSlot titles ms dt := by
  unfold lastSlot
  rw [List.filter_append]
  by_cases hm : m.short_date = dt ∧ m.title ∈ titles
  · rw [if_pos hm]
    have hf : List.filter (fun m2 => decide (m2.short_date = dt ∧ m2.title ∈ titles)) [m]
        = [m] := by simp [hm]
    rw [hf, List.getLast?_concat]
  · rw [if_neg hm]
    have hf : List.filter (fun m2 => decide (m2.short_date = dt ∧ m2.title ∈ titles)) [m]
        = [] := by simp [hm]
    rw [hf, List.append_nil]

theorem groupMealsByDay_snoc (ms : List Meal) (m : Meal) :
    groupMealsByDay (ms ++ [m]) = groupStep (groupMealsByDay ms) m := by
  unfold groupMealsByDay
  rw [List.foldl_append]
  rfl

/-- Full characterization of `groupMealsByDay`: one `Day` per distinct date
in first-seen order, whose slots hold the last matching meal. -/
theorem groupMealsByDay_char :
    ∀ ms : List Meal,
      groupMealsByDay ms = (mealDates ms).map (fun dt =>
        { short_date := dt, lunch := lastSlot lunchTitles ms dt,
          dinner := lastSlot dinnerTitles ms dt }) := by
  intro ms
  induction ms using List.reverseRecOn with
  | nil => rfl
  | append_singleton ms m ih =>
    rw [groupMealsByDay_snoc, ih, mealDates_snoc]
    unfold groupStep
    have hproj : ∀ dt : List Char,
        (({ short_date := dt, lunch := lastSlot lunchTitles ms dt,
            dinner := lastSlot dinnerTitles ms dt } : Day)).short_date = dt := fun _ => rfl
    have hcond : (∃ d ∈ (mealDates ms).map (fun dt =>
        ({ short_date := dt, lunch := lastSlot lunchTitles ms dt,
           dinner := lastSlot dinnerTitles ms dt } : Day)), d.short_date = m.short_date) ↔
        m.short_date ∈ mealDates ms := by
      constructor
      · rintro ⟨d, hd, hds⟩
        rcases List.mem_map.mp hd with ⟨dt, hdt, rfl⟩
        rw [hproj dt] at hds
        rw [← hds]
        exact hdt
      · intro h
        exact ⟨_, List.mem_map_of_mem _ h, hproj m.short_date⟩
    by_cases hmem : m.short_date ∈ mealDates ms
    · rw [if_pos hmem, if_pos (hcond.mpr hmem), List.map_map]
      refine List.map_congr_left ?_
      intro dt hdt
      simp only [Function.comp_apply, hproj]
      by_cases hdm : dt = m.short_date
      · subst hdm
        by_cases hlun : m.title = S "Brunch" ∨ m.title = S "Lunch"
        · have htl : m.title ∈ lunchTitles := by simpa [lunchTitles] using hlun
          have htd : ¬ (m.title = S "Dinner") := by
            rcases hlun with h | h <;> rw [h] <;> decide
          have htd2 : m.title ∉ dinnerTitles := by simpa [dinnerTitles] using htd
          simp [applyMeal, lastSlot_snoc, hlun, htl, htd2]
        · by_cases hdin : m.title = S "Dinner"
          · have e1 : ¬ (S "Dinner" ∈ lunchTitles) := by decide
            have e2 : S "Dinner" ∈ dinnerTitles := by decide
            have e3 : ¬ (S "Dinner" = S "Brunch" ∨ S "Dinner" = S "Lunch") := by decide
            simp [applyMeal, lastSlot_snoc, hdin, e1, e2, e3]
          · have htl : m.title ∉ lunchTitles := by simpa [lunchTitles] using hlun
            have htd : m.title ∉ dinnerTitles := by simpa [dinnerTitles] using hdin
            simp [applyMeal, lastSlot_snoc, hlun, hdin, htl, htd]
      · have hdm2 : ¬ (m.short_date = dt) := fun hc => hdm hc.symm
        simp [applyMeal, lastSlot_snoc, hdm, hdm2]
    · rw [if_neg hmem, if_neg (fun hc => hmem (hcond.mp hc)), List.map_append,
        List.map_map, List.map_append]
      have hnodate : ∀ x ∈ ms, ¬ (x.short_date = m.short_date) := by
        intro x hx heq
        refine hmem ?_
        unfold mealDates
        rw [firstSeen_mem, ← heq]
        exact List.mem_map_of_mem Meal.short_date hx
      have hslotnil : ∀ titles, lastSlot titles ms m.short_date = none := by
        intro titles
        unfold lastSlot
        have hf : List.filter
            (fun m2 => decide (m2.short_date = m.short_date ∧ m2.title ∈ titles)) ms
            = [] := by
          rw [List.filter_eq_nil_iff]
          intro a ha
          simp only [decide_eq_true_eq, not_and]
          intro hc
          exact absurd hc (hnodate a ha)
        rw [hf]
        rfl
      congr 1
      · refine List.map_congr_left ?_
        intro dt hdt
        have hdm : ¬ (dt = m.short_date) := by
          intro hc
          rw [hc] at hdt
          exact hmem hdt
        have hdm2 : ¬ (m.short_date = dt) := fun hc => hdm hc.symm
        simp only [Function.comp_apply, hproj]
        simp [applyMeal, lastSlot_snoc, hdm, hdm2]
      · simp only [List.map_cons, List.map_nil, Function.comp_apply]
        by_cases hlun : m.title = S "Brunch" ∨ m.title = S "Lunch"
        · have htl : m.title ∈ lunchTitles := by simpa [lunchTitles] using hlun
          have htd : ¬ (m.title = S "Dinner") := by
            rcases hlun with h | h <;> rw [h] <;> decide
          have htd2 : m.title ∉ dinnerTitles := by simpa [dinnerTitles] using htd
          simp [applyMeal, lastSlot_snoc, hslotnil, hlun, htl, htd2]
        · by_cases hdin : m.title = S "Dinner"
          · have e1 : ¬ (S "Dinner" ∈ lunchTitles) := by decide
            have e2 : S "Dinner" ∈ dinnerTitles := by decide
            have e3 : ¬ (S "Dinner" = S "Brunch" ∨ S "Dinner" = S "Lunch") := by decide
            simp [applyMeal, lastSlot_snoc, hslotnil, hdin, e1, e2, e3]
          · have htl : m.title ∉ lunchTitles := by simpa [lunchTitles] using hlun
            have htd : m.title ∉ dinnerTitles := by simpa [dinnerTitles] using hdin
            simp [applyMeal, lastSlot_snoc, hslotnil, hlun, hdin, htl, htd]

/-! ### Unknown-token cleanup lemmas -/

theorem isPrefixOf_take : ∀ (p l1 l2 : List Char), l1.take p.length = l2.take p.length →
    p.isPrefixOf l1 = p.isPrefixOf l2
  | [], l1, l2, _ => by cases l1 <;> cases l2 <;> rfl
  | _ :: _, [], [], _ => rfl
  | _ :: p, [], _ :: l2, h => by
    simp [List.length_cons] at h
  | _ :: p, _ :: l1, [], h => by
    simp [List.length_cons] at h
  | c :: p, d1 :: l1, d2 :: l2, h => by
    simp only [List.length_cons, List.take_succ_cons, List.cons.injEq] at h
    obtain ⟨rfl, h2⟩ := h
    simp [List.isPrefixOf, isPrefixOf_take p l1 l2 h2]

theorem unknownM_none {l : List Char} (h : (S " ::").isPrefixOf l = false) :
    unknownM l = none := by
  match l with
  | [] => rfl
  | c :: cs =>
    simp only [unknownM]
    rw [if_neg ?hc]
    case hc =>
      rintro ⟨rfl, hpre⟩
      rw [show S " ::" = ' ' :: S "::" from rfl] at h
      simp [List.isPrefixOf, hpre] at h

theorem lazyClose_concat :
    ∀ (tok : List Char) (b : List Char),
      (∀ c ∈ tok, c ≠ ':' ∧ c ≠ '\n' ∧ c ≠ '\r') →
      lazyClose (tok ++ (S "::" ++ b)) = some tok.length
  | [], b, _ => by
    show lazyClose (':' :: ':' :: b) = some 0
    rw [lazyClose]
    rw [if_pos (by simp [List.isPrefixOf, S])]
  | c :: tok, b, h => by
    obtain ⟨hc1, hc2, hc3⟩ := h c (List.mem_cons_self c tok)
    have hpre : (S "::").isPrefixOf (c :: (tok ++ (S "::" ++ b))) = false := by
      cases hb2 : (S "::").isPrefixOf (c :: (tok ++ (S "::" ++ b)))
      · rfl
      · exfalso
        obtain ⟨t, ht⟩ := (prefixOfIff _ _).1 hb2
        rw [show S "::" = ':' :: S ":" from rfl, List.cons_append] at ht
        injection ht with h1 _
        exact hc1 h1
    rw [List.cons_append, lazyClose, if_neg (by simp [hpre]), if_neg (by simp [hc2, hc3]),
      lazyClose_concat tok b (fun d hd => h d (List.mem_cons_of_mem c hd))]
    rfl

theorem replGo_unknown_delete :
    ∀ (a : List Char) (tok b : List Char) (f : Nat),
      (a ++ (S " ::" ++ (tok ++ (S "::" ++ b)))).length ≤ f →
      splitLit (S " ::") (a ++ S " ::") = [a, []] →
      (∀ c ∈ tok, c ≠ ':' ∧ c ≠ '\n' ∧ c ≠ '\r') →
      replGo unknownM [] f (a ++ (S " ::" ++ (tok ++ (S "::" ++ b)))) =
        a ++ dropUnknownTokens b
  | [], tok, b, f, hf, _, htok => by
    rw [List.nil_append] at hf ⊢
    rw [show S " ::" ++ (tok ++ (S "::" ++ b)) = ' ' :: (S "::" ++ (tok ++ (S "::" ++ b)))
      from rfl] at hf ⊢
    match f, hf with
    | f + 1, hf =>
      have hm : unknownM (' ' :: (S "::" ++ (tok ++ (S "::" ++ b)))) =
          some (1 + 2 + tok.length + 2) := by
        simp only [unknownM]
        rw [if_pos (by exact ⟨trivial, (prefixOfIff _ _).2 ⟨tok ++ (S "::" ++ b), rfl⟩⟩)]
        rw [show (S "::" ++ (tok ++ (S "::" ++ b))).drop 2 = tok ++ (S "::" ++ b) from rfl]
        rw [lazyClose_concat tok b htok]
      simp only [replGo, hm, List.nil_append]
      have hdrop : (' ' :: (S "::" ++ (tok ++ (S "::" ++ b)))).drop
          (max (1 + 2 + tok.length + 2) 1) = b := by
        have hmax : max (1 + 2 + tok.length + 2) 1 = tok.length + 5 := by omega
        rw [hmax]
        rw [show (' ' :: (S "::" ++ (tok ++ (S "::" ++ b)))) =
          ((' ' :: (S "::" ++ tok)) ++ S "::") ++ b from by simp]
        exact List.drop_left' (by simp [S])
      rw [hdrop]
      have hlen : b.length ≤ f := by
        rw [show (' ' :: (S "::" ++ (tok ++ (S "::" ++ b)))).length =
          tok.length + b.length + 5 from by simp [S]; omega] at hf
        omega
      exact replGo_fuel unknownM [] f b.length b hlen (le_refl _)
  | c :: a, tok, b, f, hf, hsplit, htok => by
    match f, hf with
    | f + 1, hf =>
      have hf2 : (a ++ (S " ::" ++ (tok ++ (S "::" ++ b)))).length ≤ f := by
        simpa using hf
      have hlit : litM (S " ::") (c :: (a ++ S " ::")) = none := by
        cases hl : litM (S " ::") (c :: (a ++ S " ::")) with
        | none => rfl
        | some n =>
          exfalso
          unfold splitLit splitByM at hsplit
          rw [show ((c :: a) ++ S " ::").length = (a ++ S " ::").length + 1 from by simp,
            show ((c :: a) ++ S " ::") = c :: (a ++ S " ::") from rfl] at hsplit
          simp only [splitGo, hl] at hsplit
          injection hsplit with h1 _
          simp at h1
      have hnopre : (S " ::").isPrefixOf (c :: (a ++ S " ::")) = false :=
        litM_none (by decide) hlit
      have hsplit2 : splitLit (S " ::") (a ++ S " ::") = [a, []] := by
        unfold splitLit splitByM at hsplit ⊢
        rw [show ((c :: a) ++ S " ::").length = (a ++ S " ::").length + 1 from by simp,
          show ((c :: a) ++ S " ::") = c :: (a ++ S " ::") from rfl] at hsplit
        rcases hsp : splitGo (litM (S " ::")) (a ++ S " ::").length (a ++ S " ::") with
          _ | ⟨s0, ss0⟩
        · exact absurd hsp (splitGo_ne_nil _ _ _)
        · simp only [splitGo, hlit, hsp] at hsplit
          injection hsplit with h1 h2
          injection h1 with _ h1a
          rw [h1a, h2]
      have htake : (c :: (a ++ (S " ::" ++ (tok ++ (S "::" ++ b))))).take (S " ::").length =
          (c :: (a ++ S " ::")).take (S " ::").length := by
        rw [show (S " ::").length = 3 from rfl]
        simp only [List.take_succ_cons]
        congr 1
        rw [show a ++ (S " ::" ++ (tok ++ (S "::" ++ b))) =
          (a ++ S " ::") ++ (tok ++ (S "::" ++ b)) from by rw [List.append_assoc]]
        rw [List.take_append_of_le_length (by simp [S])]
      have hnoprebig : (S " ::").isPrefixOf
          (c :: (a ++ (S " ::" ++ (tok ++ (S "::" ++ b))))) = false := by
        rw [isPrefixOf_take (S " ::") _ (c :: (a ++ S " ::")) htake]
        exact hnopre
      have hm := unknownM_none hnoprebig
      rw [show (c :: a) ++ (S " ::" ++ (tok ++ (S "::" ++ b))) =
        c :: (a ++ (S " ::" ++ (tok ++ (S "::" ++ b)))) from rfl]
      simp only [replGo, hm]
      rw [replGo_unknown_delete a tok b f hf2 hsplit2 htok]
      rfl

/-- The schematic deletion fact: a space-prefixed unknown token is removed
together with its leading space. -/
theorem dropUnknown_delete (a tok b : List Char)
    (h1 : splitLit (S " ::") (a ++ S " ::") = [a, []])
    (h2 : ∀ c ∈ tok, c ≠ ':' ∧ c ≠ '\n' ∧ c ≠ '\r') :
    dropUnknownTokens (a ++ (S " ::" ++ (tok ++ (S "::" ++ b)))) =
      a ++ dropUnknownTokens b :=
  replGo_unknown_delete a tok b _ (le_refl _) h1 h2

/-- Without a space-colon-colon trigger the cleanup is the identity. -/
theorem dropUnknown_id_go :
    ∀ (f : Nat) (t : List Char), t.length ≤ f → containsSub t (S " ::") = false →
      replGo unknownM [] f t = t
  | f, [], _, _ => by cases f <;> rfl
  | 0, c :: cs, hf, _ => absurd hf (by simp)
  | f + 1, c :: cs, hf, h => by
    simp only [containsSub, Bool.or_eq_false_iff] at h
    simp only [replGo, unknownM_none h.1]
    rw [dropUnknown_id_go f cs (by simpa using hf) h.2]

theorem dropUnknown_id {t : List Char} (h : containsSub t (S " ::") = false) :
    dropUnknownTokens t = t :=
  dropUnknown_id_go t.length t (le_refl _) h

/-! ### Lemmas for the totality analysis -/

theorem finishBlock_isSome (b : List Char) :
    (finishBlock b).isSome = true ↔ containsSub b (S ": ") = true := by
  unfold finishBlock
  rcases h : (splitLit (S ": ") b)[1]? with _ | its
  · simp only [h, Option.isSome_none, Bool.false_eq_true, false_iff]
    have hlen := List.getElem?_eq_none_iff.mp h
    intro hc
    have h2 := (splitGo_length_contains (S ": ") (by decide) b.length b (le_refl _)).mpr hc
    unfold splitLit splitByM at hlen
    omega
  · simp only [h, Option.isSome_some, true_iff]
    obtain ⟨hlt, _⟩ := List.getElem?_eq_some_iff.mp h
    refine (splitGo_length_contains (S ": ") (by decide) b.length b (le_refl _)).mp ?_
    unfold splitLit splitByM at hlt
    omega

theorem parseMealItems_isSome (dec : List Char → List Char) (d : List Char) :
    (parseMealItems dec d).isSome = true ↔
      ∀ b ∈ survivingBlocks dec d, containsSub b (S ": ") = true := by
  unfold parseMealItems
  rw [Option.isSome_map', optMapM_isSome]
  constructor
  · intro h b hb
    exact (finishBlock_isSome b).mp (h b hb)
  · intro h b hb
    exact (finishBlock_isSome b).mpr (h b hb)

/-! ### Claim theorems -/

/-- C1 counterexample: the claim states that `parseMeal` is total on every
description, but on the description "Hello" the only surviving block has no
": " separator, the indexed access `titleAndItems[1]` is undefined and the
subsequent `.split` throws; the items computation does not produce a Meal. -/
theorem claimC1_counterexample : parseMealItems (fun l => l) (S "Hello") = none := by
  decide

/-- C1 (amended): `parseMeal` completes with an items list exactly when
every surviving block of the description contains the ": " separator; a
surviving block without it makes the per-block indexed access fault, an
unstated fault point beyond the indexed access of the machine-readable
mode.  All other failure modes produce less data. -/
theorem claimC1_amended (dec : List Char → List Char) (d : List Char) :
    (parseMealItems dec d).isSome = true ↔
      ∀ b ∈ survivingBlocks dec d, containsSub b (S ": ") = true :=
  parseMealItems_isSome dec d

/-- C1 witness: a well-formed description parses to an items list. -/
theorem claimC1_witness :
    (parseMealItems (fun l => l) (S "<span a=b>Menu</span>Soup: Lentil")).isSome = true :=
  (claimC1_amended (fun l => l) (S "<span a=b>Menu</span>Soup: Lentil")).mpr (by decide)

/-- C2 counterexample: the claim states the output of `sortMains` has no
duplicates, but two distinct input items that differ only in edge
whitespace are both kept by the exact-string dedup and trim to the same
output string. -/
theorem claimC2_counterexample :
    sortMains [S "a", S "a "] = [S "a", S "a"] ∧
      ¬ (sortMains [S "a", S "a "]).Nodup := by
  constructor
  · decide
  · decide

/-- C2 (amended): the output of `sortMains` is exactly the deduplicated
input items (exact-string dedup, first occurrences kept), each transformed
once: trimmed, and wrapped in bold markup when its lowercased form contains
some keyword.  No item is dropped and each distinct input item contributes
exactly one output entry, though two distinct inputs may trim to equal
output strings. -/
theorem claimC2_amended (lst : List (List Char)) :
    (sortMains lst).Perm ((firstSeen lst).map transformItem) :=
  sortMains_perm lst

/-- C3: in the output of `sortMains`, items are ordered by the index of
their earliest matching keyword in the fixed priority list, and every
keyword-matched item appears before every unmatched item (an unmatched
item has index `keywords.length`, and once an unmatched item appears every
later item is unmatched as well). -/
theorem claimC3 (lst : List (List Char)) :
    ((sortMains lst).Pairwise (fun a b => minKwIdx a ≤ minKwIdx b)) ∧
    (∀ l1 x l2 y l3, sortMains lst = l1 ++ x :: l2 ++ y :: l3 →
      minKwIdx x = keywords.length → minKwIdx y = keywords.length) := by
  refine ⟨sortMains_pairwise lst, ?_⟩
  intro l1 x l2 y l3 hdec hx
  have hrel := pairwise_decomp (sortMains_pairwise lst) hdec
  have hy := minKwIdx_le y
  omega

/-- C3 witness: two unmatched items stay unmatched in order. -/
theorem claimC3_witness : minKwIdx (S "Jam") = keywords.length :=
  (claimC3 [S "Bread", S "Jam"]).2 [] (S "Bread") [] (S "Jam") []
    (by decide) (by decide)

/-- C4: the final block sort of `parseMeal` is a permutation, sorted by the
comparison key (the canonical-order index, `-1` when no label prefix
matches), stable (filtering input and output by any key value gives the
same list, so blocks with equal keys, or both unranked, keep their input
order), and once a ranked block appears every later block is ranked: every
unranked block sorts before every ranked block. -/
theorem claimC4 (l : List (List Char)) :
    (sortBlocks l).Perm l ∧
    (sortBlocks l).Pairwise (fun a b => blockKey a ≤ blockKey b) ∧
    (∀ k : Int, (sortBlocks l).filter (fun b => decide (blockKey b = k)) =
      l.filter (fun b => decide (blockKey b = k))) ∧
    (∀ l1 x l2 y l3, sortBlocks l = l1 ++ x :: l2 ++ y :: l3 →
      blockKey x ≠ -1 → blockKey y ≠ -1) := by
  refine ⟨List.perm_insertionSort _ l, List.sorted_insertionSort _ l,
    fun k => sortBlocks_stable k l, ?_⟩
  intro l1 x l2 y l3 hdec hx
  have hrel := pairwise_decomp (List.sorted_insertionSort
    (fun a b => blockKey a ≤ blockKey b) l) hdec
  have hxge := blockKey_ge x
  have hyge := blockKey_ge y
  omega

/-- C4 witness: with a Main 1 block before a Main 2 block, the later block
is ranked. -/
theorem claimC4_witness :
    blockKey (S "<abbr title=\"World of Flavor\">Main 2</abbr>: B") ≠ -1 :=
  (claimC4 [S "<abbr title=\"Classics\">Main 1</abbr>: A",
      S "<abbr title=\"World of Flavor\">Main 2</abbr>: B"]).2.2.2
    [] (S "<abbr title=\"Classics\">Main 1</abbr>: A") []
    (S "<abbr title=\"World of Flavor\">Main 2</abbr>: B") []
    (by decide) (by decide)

/-- C5: `groupMealsByDay` produces exactly one `Day` per distinct
`short_date`, in first-seen order (the date list has no duplicates), and
each `Day` carries in its lunch slot the last meal of the input with that
date titled Brunch or Lunch (so a later Brunch or Lunch overwrites an
earlier one) and in its dinner slot the last meal with that date titled
Dinner; the slots are optional so a `Day` has at most one of each. -/
theorem claimC5 (meals : List Meal) :
    groupMealsByDay meals = (mealDates meals).map (fun dt =>
      { short_date := dt, lunch := lastSlot lunchTitles meals dt,
        dinner := lastSlot dinnerTitles meals dt }) ∧
    (mealDates meals).Nodup :=
  ⟨groupMealsByDay_char meals, firstSeen_nodup _⟩

/-- C6 counterexample: the claim states that `parseEssies` returns the text
after the first case-insensitive occurrence of "special", but the split
takes only the text up to the second occurrence: on a segment containing
"special" twice the code returns "A" while the text after the first
occurrence is "A special B". -/
theorem claimC6_counterexample :
    parseEssies (fun l => l) [⟨S "t", S "s", S "e", S "Xspecial A special B"⟩] =
        some (S "A") ∧
      S "A" ≠ S "A special B" := by
  constructor
  · decide
  · decide

/-- C6 (amended): `parseEssies` returns `undefined` exactly when the batch
has no first record or no bold-tag segment of its description contains
"special" case-insensitively; otherwise it entity-decodes the first such
segment and returns the tag-stripped, trimmed text strictly between the
first and second case-insensitive occurrences of "special" in the decoded
segment (the text after the first occurrence when there is no second, and
the empty string when nothing follows or no occurrence survives
decoding). -/
theorem claimC6_amended (dec : List Char → List Char) (meals : List RawMeal) :
    (parseEssies dec meals = none ↔
      meals.head? = none ∨ ∃ m, meals.head? = some m ∧
        ∀ line ∈ splitByM boldM m.description,
          containsSub (toLowerL line) (S "special") = false) ∧
    (∀ m special, meals.head? = some m →
      (splitByM boldM m.description).find?
          (fun line => containsSub (toLowerL line) (S "special")) = some special →
      parseEssies dec meals =
        some (trimL (stripHtmlTags
          (((splitByM (ciLitM (S "special")) (dec special))[1]?).getD [])))) := by
  have hne : ∀ special : List Char,
      containsSub (toLowerL special) (S "special") = true → ¬ special.isEmpty = true := by
    intro special hsp hemp
    rw [List.isEmpty_iff] at hemp
    subst hemp
    simp only [toLowerL, List.map_nil, containsSub] at hsp
    exact absurd hsp (by decide)
  constructor
  · cases hh : meals.head? with
    | none =>
      simp only [parseEssies, hh]
      simp
    | some m =>
      cases hf : (splitByM boldM m.description).find?
          (fun line => containsSub (toLowerL line) (S "special")) with
      | none =>
        simp only [parseEssies, hh, hf]
        constructor
        · intro _
          right
          refine ⟨m, rfl, fun line hl => ?_⟩
          have h2 := List.find?_eq_none.mp hf line hl
          simpa using h2
        · intro _
          trivial
      | some special =>
        have hpred := List.find?_some hf
        simp only [parseEssies, hh, hf]
        rw [if_neg (hne special hpred)]
        constructor
        · intro hc
          exact Option.noConfusion hc
        · rintro (hcontra | ⟨m2, hm2, hall⟩)
          · exact Option.noConfusion hcontra
          · injection hm2 with hm2
            subst hm2
            have h3 := hall special (List.mem_of_find?_eq_some hf)
            rw [hpred] at h3
            exact Bool.noConfusion h3
  · intro m special hh hf
    have hpred := List.find?_some hf
    simp only [parseEssies, hh, hf]
    rw [if_neg (hne special hpred)]

/-- C6 witness: a single-occurrence segment returns the text after
"special", tag-stripped and trimmed. -/
theorem claimC6_witness :
    parseEssies (fun l => l)
        [⟨S "t", S "s", S "e", S "Soup <b>Daily Special: Pancakes"⟩] =
      some (S ": Pancakes") := by
  have h := (claimC6_amended (fun l => l)
      [⟨S "t", S "s", S "e", S "Soup <b>Daily Special: Pancakes"⟩]).2
    ⟨S "t", S "s", S "e", S "Soup <b>Daily Special: Pancakes"⟩
    (S "Daily Special: Pancakes") (by decide) (by decide)
  rw [h]
  decide

/-- C7 counterexample: on the concrete description of the claim the first
item is not the claimed "Main 1 markup: Taco Salad": the replacement of
the closing span inserts a second colon after the label markup and the
bolded text keeps the trailing comma of the feed text. -/
theorem claimC7_counterexample :
    parseMealItems (fun l => l)
        (S "<span class=\"x\">Classics:</span>Taco Salad, <span class=\"y\">World Flavor:</span>Chicken Tikka") =
      some [S "<abbr title=\"Classics\">Main 1</abbr>:: <strong>Taco Salad,</strong>",
        S "<abbr title=\"World of Flavor\">Main 2</abbr>:: <strong>Chicken Tikka</strong>"] ∧
    S "<abbr title=\"Classics\">Main 1</abbr>:: <strong>Taco Salad,</strong>" ≠
      S "<abbr title=\"Classics\">Main 1</abbr>: <strong>Taco Salad</strong>" := by
  constructor
  · decide
  · decide

/-- C7 (amended): the concrete description yields exactly two blocks,
Main 1 before Main 2; because the closing-span boundary is replaced by
": " while the label text already ends in a colon, the label markup is
followed by a doubled colon; the bolded Taco Salad retains the trailing
comma of the feed text ("Taco Salad,"), and Chicken Tikka is also bolded
through the "chicken" keyword. -/
theorem claimC7_amended :
    parseMealItems (fun l => l)
        (S "<span class=\"x\">Classics:</span>Taco Salad, <span class=\"y\">World Flavor:</span>Chicken Tikka") =
      some [S "<abbr title=\"Classics\">Main 1</abbr>:: <strong>Taco Salad,</strong>",
        S "<abbr title=\"World of Flavor\">Main 2</abbr>:: <strong>Chicken Tikka</strong>"] := by
  decide

/-- C8: (a) the vegan-token pass used by `parseMeal` rewrites the block as
the segments between occurrences of "::vegan::" joined by the fixed vegan
markup, and no segment still contains the token — every occurrence is
replaced and the raw token removed; (b) after the fixed substitutions, a
remaining double-colon-delimited token with no matching rule, together
with its leading space, is deleted by the cleanup pass: the text around
the match is preserved and the match itself dropped. -/
theorem claimC8 :
    (∀ t : List Char,
      replaceLit (S "::vegan::") vegan t =
        intercalateL vegan (splitLit (S "::vegan::") t) ∧
      ∀ s ∈ splitLit (S "::vegan::") t, containsSub s (S "::vegan::") = false) ∧
    (∀ a tok b : List Char,
      splitLit (S " ::") (a ++ S " ::") = [a, []] →
      (∀ c ∈ tok, c ≠ ':' ∧ c ≠ '\n' ∧ c ≠ '\r') →
      dropUnknownTokens (a ++ (S " ::" ++ (tok ++ (S "::" ++ b)))) =
        a ++ dropUnknownTokens b) :=
  ⟨fun t => ⟨replaceByM_eq_intercalate _ _ _,
    fun s hs => splitGo_lit_free (S "::vegan::") (by decide) t.length t (le_refl _) s hs⟩,
   dropUnknown_delete⟩

/-- C8 witness: a concrete unknown token is deleted with its leading
space. -/
theorem claimC8_witness :
    dropUnknownTokens (S "Tofu" ++ (S " ::" ++ (S "mystery" ++ (S "::" ++ S " Rice")))) =
      S "Tofu" ++ dropUnknownTokens (S " Rice") :=
  claimC8.2 (S "Tofu") (S "mystery") (S " Rice") (by decide) (by decide)

/-- C9: the unknown-token cleanup requires a leading space, so (a) on any
text with no occurrence of " ::" the cleanup is the identity, and (b) in
the full pipeline an unrecognized token attached directly to the preceding
word survives verbatim into the final Meal item text. -/
theorem claimC9 :
    (∀ t : List Char, containsSub t (S " ::") = false → dropUnknownTokens t = t) ∧
    parseMealItems (fun l => l) (S "<span x=y>Menu:</span> Hi,::mystery::Stew") =
      some [S "Menu:: Hi,::mystery::Stew"] ∧
    containsSub (S "Menu:: Hi,::mystery::Stew") (S "::mystery::") = true := by
  refine ⟨fun t h => dropUnknown_id h, ?_, ?_⟩
  · decide
  · decide

/-- C9 witness: a token at the very start of a text survives the cleanup
verbatim. -/
theorem claimC9_witness :
    dropUnknownTokens (S "::mystery::Stew") = S "::mystery::Stew" :=
  claimC9.1 (S "::mystery::Stew") (by decide)

/-- C10: when a surviving block splits into three or more parts on ": "
(the separator occurs more than once), the resulting Meal item is built
from the first part and the second part only — everything from the second
occurrence of ": " onward is silently dropped. -/
theorem claimC10 (b : List Char) (h3 : 3 ≤ (splitLit (S ": ") b).length) :
    finishBlock b = some (((splitLit (S ": ") b).headD []) ++ S ": " ++
      intercalateL (S ", ")
        (sortMains ((splitLit (S ", ")
          ((splitLit (S ": ") b).getD 1 [])).map stripAmp))) := by
  unfold finishBlock
  have h1 : (splitLit (S ": ") b)[1]? = some ((splitLit (S ": ") b).getD 1 []) := by
    rw [List.getD_eq_getElem?_getD, List.getElem?_eq_getElem (by omega)]
    rfl
  simp only [h1]

/-- C10 witness: the part after the second separator is dropped. -/
theorem claimC10_witness : finishBlock (S "A: B: C") = some (S "A: B") := by
  have h := claimC10 (S "A: B: C") (by decide)
  rw [h]
  decide

end Sharples
